import Mathlib

/-!
Verification of the hybrid retrieval/ranking engine and the text chunker of
the pdf-rag-retrieval backend.

The embedding models Python strings as `List Char` (`Str`), Python floats as
`ℚ` (all score arithmetic in the source is plain field arithmetic and
comparison), and the external ChromaDB query as an input of type
`Except Unit (List Raw)`: `.error` stands for an exception raised by the
vector-store adapter, `.ok raws` for a successful reply whose i-th candidate
carries its text, its metadata's `document_id` (an `Option String`: `none`
models a missing key or a `None` value, `some ""` an empty-string value) and
its distance.  Python's stable `sort`/`sorted` is modelled by Mathlib's
(stable) insertion sort.

Sources embedded:
  * `ChromaDBService._tokenize`, `_normalize_scores`, `_keyword_overlap_score`,
    `_compute_tfidf_scores`, `hybrid_search`
    (src/backend/documents/services/chromadb_service.py), and
  * `EmbeddingService._clean_text`, `_split_into_sentences`,
    `_get_overlap_text`, `split_text_into_chunks`
    (src/backend/documents/services/embedding_service.py).
-/

/-- Python strings are modelled as lists of characters. -/
abbrev Str := List Char

/-- `re.findall(r'\b\w+\b', ...)` word characters: alphanumeric or underscore
(ASCII scope of the model). -/
def isWordChar (c : Char) : Bool := c.isAlphanum || c = '_'

/-- Scanner for `re.findall(r'\b\w+\b', text)`: maximal runs of word
characters.  `cur` holds the current run reversed. -/
def tokenizeAux : List Char → List Char → List Str
  | [], [] => []
  | [], cur => [cur.reverse]
  | c :: cs, cur =>
    if isWordChar c then tokenizeAux cs (c :: cur)
    else if cur.isEmpty then tokenizeAux cs []
    else cur.reverse :: tokenizeAux cs []

/-- `ChromaDBService._tokenize`: `re.findall(r'\b\w+\b', text.lower())`. -/
def tokenize (text : Str) : List Str :=
  tokenizeAux (text.map Char.toLower) []

/-- Python `min(scores)` (meaningful for non-empty input, as at the call
sites). -/
def pyMin : List ℚ → ℚ
  | [] => 0
  | a :: rest => rest.foldl min a

/-- Python `max(scores)` (meaningful for non-empty input, as at the call
sites). -/
def pyMax : List ℚ → ℚ
  | [] => 0
  | a :: rest => rest.foldl max a

/-- The degeneracy threshold `1e-12` of `_normalize_scores`. -/
def eps12 : ℚ := 1 / 1000000000000

/-- `ChromaDBService._normalize_scores`: min-max normalization, all zeros when
`mx - mn <= 1e-12`, `[]` for `[]`. -/
def normalize_scores (scores : List ℚ) : List ℚ :=
  if scores.isEmpty then []
  else
    let mn := pyMin scores
    let mx := pyMax scores
    if mx - mn ≤ eps12 then scores.map (fun _ => 0)
    else scores.map (fun s => (s - mn) / (mx - mn))

/-- `ChromaDBService._keyword_overlap_score`: `|set(query) ∩ set(doc)| /
|set(query)|` over tokens; `0.0` for a token-free query.  The distinct query
terms are `(tokenize query).dedup`; the intersection size is the number of
them occurring in the document's token list. -/
def keyword_overlap_score (query doc : Str) : ℚ :=
  let q_terms := (tokenize query).dedup
  if q_terms.isEmpty then 0
  else
    let d_tokens := tokenize doc
    ((q_terms.filter (fun t => decide (t ∈ d_tokens))).length : ℚ) / (q_terms.length : ℚ)

/-- `ChromaDBService._compute_tfidf_scores`, parametrized by the real-log
function `log` standing for `math.log` (the source computes
`math.log((N + 1) / (df + 1)) + 1.0`).  `df.get(t, 0)` is the number of
candidate documents containing `t`, i.e. `countP`; the per-document score sums
`tf[t] * idf[t]` over the distinct query terms present in the document, where
`tf[t] = count(t) / len(terms)`. -/
def compute_tfidf_scores (log : ℚ → ℚ) (query : Str) (docs : List Str) : List ℚ :=
  let q_terms := (tokenize query).dedup
  if q_terms.isEmpty || docs.isEmpty then List.replicate docs.length 0
  else
    let doc_tokens := docs.map tokenize
    let N : ℚ := (doc_tokens.length : ℚ)
    let idf : Str → ℚ := fun t =>
      log ((N + 1) / ((doc_tokens.countP (fun terms => decide (t ∈ terms)) : ℚ) + 1)) + 1
    doc_tokens.map (fun terms =>
      if terms.isEmpty then 0
      else
        ((q_terms.filter (fun t => decide (t ∈ terms))).map
          (fun t => ((terms.count t : ℚ) / (terms.length : ℚ)) * idf t)).sum)

/-- A raw candidate as returned by the vector-store query: its text, the
`document_id` of its metadata (`none` = missing key or `None`), and its
distance. -/
structure Raw where
  text : Str
  docId : Option String
  dist : ℚ
deriving DecidableEq

/-- A scored candidate dict as built at lines 176-184 of `hybrid_search`. -/
structure Cand where
  text : Str
  docId : Option String
  semantic_score : ℚ
  keyword_score : ℚ
  tfidf_score : ℚ
  score : ℚ
deriving DecidableEq

/-- A final result dict: a candidate with its 1-based `rank`. -/
structure Ranked where
  cand : Cand
  rank : Nat
deriving DecidableEq

/-- Descending comparison on `semantic_score`, the sort key of
`candidates.sort(key=lambda x: x['semantic_score'], reverse=True)`; stable
insertion sort with this relation models Python's stable descending sort. -/
def semGE (a b : Cand) : Prop := b.semantic_score ≤ a.semantic_score

instance : DecidableRel semGE := fun a b =>
  inferInstanceAs (Decidable (b.semantic_score ≤ a.semantic_score))

instance : IsTotal Cand semGE := ⟨fun a b => le_total b.semantic_score a.semantic_score⟩

instance : IsTrans Cand semGE := ⟨fun _ _ _ h h' => le_trans h' h⟩

/-- Descending comparison on `keyword_score`, the key of the intra-group
re-sort `sorted(..., key=lambda x: x['keyword_score'], reverse=True)`. -/
def kwGE (a b : Cand) : Prop := b.keyword_score ≤ a.keyword_score

instance : DecidableRel kwGE := fun a b =>
  inferInstanceAs (Decidable (b.keyword_score ≤ a.keyword_score))

instance : IsTotal Cand kwGE := ⟨fun a b => le_total b.keyword_score a.keyword_score⟩

instance : IsTrans Cand kwGE := ⟨fun _ _ _ h h' => le_trans h' h⟩

/-- The tie-band scan of `hybrid_search` (lines 188-196): `anchor` is
`candidates[group_start]`, `cur` the members (reversed) scanned into the
current group; a candidate `c` with `anchor.semantic_score - c.semantic_score
> epsilon` closes the group and anchors the next one.  Groups are returned in
scan order. -/
def tieGroupsGo (eps : ℚ) (anchor : Cand) (cur : List Cand) : List Cand → List (List Cand)
  | [] => [anchor :: cur.reverse]
  | c :: cs =>
    if anchor.semantic_score - c.semantic_score ≤ eps then
      tieGroupsGo eps anchor (c :: cur) cs
    else
      (anchor :: cur.reverse) :: tieGroupsGo eps c [] cs

/-- The contiguous tie-band groups of a (semantically sorted) candidate list. -/
def tieGroups (eps : ℚ) : List Cand → List (List Cand)
  | [] => []
  | a :: rest => tieGroupsGo eps a [] rest

/-- Lines 188-196 of `hybrid_search`: each tie-band group, re-sorted by
`keyword_score` descending in place; boundaries and group order unchanged. -/
def tieBandRerank (eps : ℚ) (l : List Cand) : List Cand :=
  ((tieGroups eps l).map (List.insertionSort kwGE)).flatten

/-- `doc_id in seen_docs` of line 202: `None` is never a member (the set holds
strings); an id string is a member iff it was added. -/
def isSeen (d : Option String) (seen : List String) : Bool :=
  match d with
  | none => false
  | some s => decide (s ∈ seen)

/-- Python truthiness of `doc_id` in `if unique_citations and doc_id:` of line
205: `None` and `""` are falsy. -/
def truthy (d : Option String) : Bool :=
  match d with
  | none => false
  | some s => decide (s ≠ "")

/-- The deduplication loop of `hybrid_search` (lines 198-208), returning the
emitted list together with the final `seen_docs` set (as a list).  `acc` holds
the emitted candidates reversed; the loop breaks as soon as `n` results are
accepted (checked after appending, as in the source). -/
def dedupGo (uniq : Bool) (n : Nat) (seen : List String) (acc : List Cand) :
    List Cand → List Cand × List String
  | [] => (acc.reverse, seen)
  | c :: cs =>
    if uniq && isSeen c.docId seen then dedupGo uniq n seen acc cs
    else
      let acc2 := c :: acc
      let seen2 := if uniq && truthy c.docId then c.docId.getD "" :: seen else seen
      if n ≤ acc2.length then (acc2.reverse, seen2) else dedupGo uniq n seen2 acc2 cs

/-- The emitted sequence of the deduplication loop. -/
def hybridDedup (uniq : Bool) (n : Nat) (l : List Cand) : List Cand :=
  (dedupGo uniq n [] [] l).1

/-- Lines 176-184: `candidates[i] = {text_i, meta_i, semantic_scores[i],
keyword_scores[i], tfidf_scores[i], score := semantic_scores[i]}` (the zip
truncates at the shortest list; all four lists have equal length at the call
site). -/
def mkCands : List Raw → List ℚ → List ℚ → List ℚ → List Cand
  | r :: rs, s :: ss, k :: ks, t :: ts =>
    ⟨r.text, r.docId, s, k, t, s⟩ :: mkCands rs ss ks ts
  | _, _, _, _ => []

/-- `ChromaDBService.hybrid_search` (lines 149-217).  `qres` is the outcome of
`self.collection.query(...)`: `.error ()` models any exception raised during
retrieval (caught by the top-level `except`, line 215), `.ok []` a reply with
no candidates (line 156).  `log` stands for `math.log` inside the TF-IDF
scorer.  The `top_k` and `document_ids` arguments only shape the adapter call
and are absorbed into `qres`. -/
def hybrid_search (log : ℚ → ℚ) (qres : Except Unit (List Raw)) (query : Str)
    (n_results : Nat) (epsilon : ℚ) (include_tfidf : Bool) (unique_citations : Bool) :
    List Ranked :=
  match qres with
  | .error _ => []
  | .ok raws =>
    if raws.isEmpty then []
    else
      let semantic_scores := normalize_scores (raws.map (fun r => 1 - r.dist))
      let keyword_scores :=
        normalize_scores (raws.map (fun r => keyword_overlap_score query r.text))
      let tfidf_scores :=
        if include_tfidf then
          normalize_scores (compute_tfidf_scores log query (raws.map (fun r => r.text)))
        else List.replicate raws.length 0
      let candidates := mkCands raws semantic_scores keyword_scores tfidf_scores
      let sorted := List.insertionSort semGE candidates
      let reranked := tieBandRerank epsilon sorted
      let final := hybridDedup unique_citations n_results reranked
      final.enum.map (fun p => ⟨p.2, p.1 + 1⟩)

/-- Whitespace for Python `str.strip()` and `\s` (ASCII scope of the model). -/
def ws (c : Char) : Bool := c.isWhitespace

/-- Python `str.strip()`: drop whitespace from the front, then from the back. -/
def stripChars (l : Str) : Str :=
  ((l.dropWhile ws).reverse.dropWhile ws).reverse

/-- Split at every character satisfying `p`, keeping (possibly empty)
segments.  `re.split(r'[.!?]+', text)` merges delimiter runs, producing no
empty segment between two adjacent delimiters; since every caller filters out
empty (stripped) segments, splitting at every delimiter is an equivalent
model. -/
def splitP (p : Char → Bool) : Str → List Str
  | [] => [[]]
  | c :: cs =>
    if p c then [] :: splitP p cs
    else
      match splitP p cs with
      | [] => [[c]]
      | g :: gs => (c :: g) :: gs

/-- A sentence-terminating character of `re.split(r'[.!?]+', ...)`. -/
def isSentEnd (c : Char) : Bool := c = '.' || c = '!' || c = '?'

/-- `EmbeddingService._split_into_sentences`: split on `[.!?]+`, strip each
piece, keep the non-empty ones. -/
def split_into_sentences (text : Str) : List Str :=
  ((splitP isSentEnd text).map stripChars).filter (fun s => !s.isEmpty)

/-- The accretion loop of `_get_overlap_text` (lines 93-97): walk the
sentences in reverse; while `len(overlap_text + sentence) <= chunk_overlap`,
prepend `sentence + " "`; stop at the first failure. -/
def overlapLoop (chunk_overlap : Nat) : List Str → Str → Str
  | [], acc => acc
  | s :: rest, acc =>
    if (acc ++ s).length ≤ chunk_overlap then overlapLoop chunk_overlap rest (s ++ ' ' :: acc)
    else acc

/-- `EmbeddingService._get_overlap_text`: the whole text when it fits in
`chunk_overlap`, otherwise the stripped result of the reverse accretion loop. -/
def get_overlap_text (chunk_overlap : Nat) (text : Str) : Str :=
  if text.length ≤ chunk_overlap then text
  else stripChars (overlapLoop chunk_overlap (split_into_sentences text).reverse [])

/-- Scanner for `re.sub(r'\s+', ' ', text)`: each maximal whitespace run
becomes one `' '`; `prevWs` records whether the previous character was
whitespace. -/
def collapseWsGo : Bool → Str → Str
  | _, [] => []
  | prevWs, c :: cs =>
    if ws c then
      if prevWs then collapseWsGo true cs else ' ' :: collapseWsGo true cs
    else c :: collapseWsGo false cs

/-- `re.sub(r'\s+', ' ', text)`. -/
def collapseWs (l : Str) : Str := collapseWsGo false l

/-- A character kept by `re.sub(r'[^\w\s.,!?;:()\-]', '', text)`. -/
def keepChar (c : Char) : Bool :=
  isWordChar c || ws c ||
    (c = '.' || c = ',' || c = '!' || c = '?' || c = ';' || c = ':' ||
     c = '(' || c = ')' || c = '-')

/-- `EmbeddingService._clean_text`: collapse whitespace runs, drop the
disallowed characters, strip. -/
def clean_text (text : Str) : Str :=
  stripChars ((collapseWs text).filter keepChar)

/-- A chunk dict as emitted by `split_text_into_chunks`. -/
structure Chunk where
  text : Str
  chunk_index : Nat
  start_char : Nat
  end_char : Nat
deriving DecidableEq

/-- The sentence-accumulation loop of `split_text_into_chunks` (lines 41-65):
`cur` is `current_chunk`, `idx` the running `chunk_index`, `acc` the emitted
chunks.  A chunk closes when appending the next sentence would exceed
`chunk_size` and the buffer is non-empty; the next buffer is seeded with
`_get_overlap_text(current_chunk) + " " + sentence`.  After the loop the
buffer is emitted if its stripped text is non-empty. -/
def chunkLoop (chunk_size chunk_overlap : Nat) :
    List Str → Str → Nat → List Chunk → List Chunk
  | [], cur, idx, acc =>
    if (stripChars cur).isEmpty then acc
    else acc ++ [⟨stripChars cur, idx, 0, cur.length⟩]
  | s :: rest, cur, idx, acc =>
    if chunk_size < cur.length + s.length ∧ ¬cur.isEmpty then
      let acc2 := acc ++ [⟨stripChars cur, idx, 0, cur.length⟩]
      let ov := get_overlap_text chunk_overlap cur
      chunkLoop chunk_size chunk_overlap rest (ov ++ ' ' :: s) (idx + 1) acc2
    else
      chunkLoop chunk_size chunk_overlap rest (if cur.isEmpty then s else cur ++ ' ' :: s) idx acc

/-- `EmbeddingService.split_text_into_chunks`: `[]` for whitespace-only input,
otherwise the chunk loop over the sentences of the cleaned text. -/
def split_text_into_chunks (chunk_size chunk_overlap : Nat) (text : Str) : List Chunk :=
  if (stripChars text).isEmpty then []
  else chunkLoop chunk_size chunk_overlap (split_into_sentences (clean_text text)) [] 0 []

/-! ## Helper lemmas: min/max folds -/

lemma foldlMin_le_init (l : List ℚ) : ∀ a : ℚ, l.foldl min a ≤ a := by
  induction l with
  | nil => intro a; simp
  | cons b t ih =>
    intro a
    calc (b :: t).foldl min a = t.foldl min (min a b) := rfl
    _ ≤ min a b := ih _
    _ ≤ a := min_le_left _ _

lemma foldlMin_le_mem (l : List ℚ) : ∀ a x : ℚ, x ∈ l → l.foldl min a ≤ x := by
  induction l with
  | nil => intro a x hx; cases hx
  | cons b t ih =>
    intro a x hx
    rcases List.mem_cons.mp hx with h | h
    · subst h
      calc (x :: t).foldl min a = t.foldl min (min a x) := rfl
      _ ≤ min a x := foldlMin_le_init _ _
      _ ≤ x := min_le_right _ _
    · exact ih _ _ h

lemma init_le_foldlMax (l : List ℚ) : ∀ a : ℚ, a ≤ l.foldl max a := by
  induction l with
  | nil => intro a; simp
  | cons b t ih =>
    intro a
    calc a ≤ max a b := le_max_left _ _
    _ ≤ t.foldl max (max a b) := ih _
    _ = (b :: t).foldl max a := rfl

lemma mem_le_foldlMax (l : List ℚ) : ∀ a x : ℚ, x ∈ l → x ≤ l.foldl max a := by
  induction l with
  | nil => intro a x hx; cases hx
  | cons b t ih =>
    intro a x hx
    rcases List.mem_cons.mp hx with h | h
    · subst h
      calc x ≤ max a x := le_max_right _ _
      _ ≤ t.foldl max (max a x) := init_le_foldlMax _ _
      _ = (x :: t).foldl max a := rfl
    · exact ih _ _ h

lemma pyMin_le_of_mem {scores : List ℚ} {x : ℚ} (hx : x ∈ scores) : pyMin scores ≤ x := by
  cases scores with
  | nil => cases hx
  | cons a t =>
    rcases List.mem_cons.mp hx with h | h
    · subst h; exact foldlMin_le_init _ _
    · exact foldlMin_le_mem _ _ _ h

lemma le_pyMax_of_mem {scores : List ℚ} {x : ℚ} (hx : x ∈ scores) : x ≤ pyMax scores := by
  cases scores with
  | nil => cases hx
  | cons a t =>
    rcases List.mem_cons.mp hx with h | h
    · subst h; exact init_le_foldlMax _ _
    · exact mem_le_foldlMax _ _ _ h

lemma map_zero_eq_replicate (l : List ℚ) :
    l.map (fun _ => (0 : ℚ)) = List.replicate l.length 0 := by
  induction l with
  | nil => rfl
  | cons a t ih => simp [ih, List.replicate]

/-- C5: `_normalize_scores` returns a list of the same length and order,
every element in `[0, 1]`: when `max - min ≤ 1e-12` (in particular when all
scores are equal or the list is empty) every output is `0`, and otherwise the
output is the elementwise `(s - min) / (max - min)`; being a total function,
it raises no exception. -/
theorem normalize_scores_spec (scores : List ℚ) :
    (normalize_scores scores).length = scores.length ∧
    (∀ x ∈ normalize_scores scores, 0 ≤ x ∧ x ≤ 1) ∧
    (pyMax scores - pyMin scores ≤ eps12 →
      normalize_scores scores = List.replicate scores.length 0) ∧
    (eps12 < pyMax scores - pyMin scores →
      normalize_scores scores =
        scores.map (fun s => (s - pyMin scores) / (pyMax scores - pyMin scores))) := by
  cases scores with
  | nil =>
    refine ⟨rfl, ?_, ?_, ?_⟩
    · intro x hx; cases hx
    · intro _; rfl
    · intro h
      exfalso
      have : (0 : ℚ) < eps12 := by norm_num [eps12]
      simp [pyMin, pyMax] at h
      linarith
  | cons a t =>
    have hne : ((a :: t).isEmpty) = false := rfl
    by_cases hdeg : pyMax (a :: t) - pyMin (a :: t) ≤ eps12
    · have hval : normalize_scores (a :: t) = (a :: t).map (fun _ => (0 : ℚ)) := by
        simp only [normalize_scores, hne, Bool.false_eq_true, if_false, if_pos hdeg]
      refine ⟨by simp [hval], ?_, ?_, ?_⟩
      · intro x hx
        rw [hval] at hx
        rcases List.mem_map.mp hx with ⟨s, _, rfl⟩
        norm_num
      · intro _; rw [hval, map_zero_eq_replicate]
      · intro h; exact absurd hdeg (not_le.mpr h)
    · have hval : normalize_scores (a :: t) =
          (a :: t).map (fun s => (s - pyMin (a :: t)) / (pyMax (a :: t) - pyMin (a :: t))) := by
        simp only [normalize_scores, hne, Bool.false_eq_true, if_false, if_neg hdeg]
      have hpos : 0 < pyMax (a :: t) - pyMin (a :: t) := by
        have : (0 : ℚ) < eps12 := by norm_num [eps12]
        push_neg at hdeg
        linarith
      refine ⟨by simp [hval], ?_, ?_, ?_⟩
      · intro x hx
        rw [hval] at hx
        rcases List.mem_map.mp hx with ⟨s, hs, rfl⟩
        constructor
        · exact div_nonneg (by linarith [pyMin_le_of_mem hs]) (le_of_lt hpos)
        · rw [div_le_one hpos]
          linarith [le_pyMax_of_mem hs]
      · intro h; exact absurd h (not_le.mpr (by push_neg at hdeg; exact hdeg))
      · intro _; exact hval

/-! ## C4, C8 and concrete counterexamples -/

/-- C4: `hybrid_search` never propagates an exception: the whole body is a
total function into `List Ranked`; when the vector-store query raises (the
`.error` branch, caught by the top-level `except` at line 215) the result is
`[]`, and when the query returns no candidates (line 156) the result is `[]`. -/
theorem hybrid_search_fail_open (log : ℚ → ℚ) (query : Str) (n_results : Nat)
    (epsilon : ℚ) (include_tfidf unique_citations : Bool) :
    hybrid_search log (.error ()) query n_results epsilon include_tfidf unique_citations
      = [] ∧
    hybrid_search log (.ok []) query n_results epsilon include_tfidf unique_citations
      = [] :=
  ⟨rfl, rfl⟩

/-- C8 counterexample: `hybrid_search` contains no configuration validation
at all; a call in which the vector-store query fails (as it would when handed
a negative `top_k`) returns the value `[]` instead of raising — the top-level
`except` swallows the error.  The claim that it "raises an exception on
invalid configuration ... before issuing the vector-store query" is false of
the code. -/
theorem hybrid_search_no_validation_cex :
    hybrid_search (fun x => x) (.error ()) ['q'] 10 (1 / 50) true true = [] := rfl

/-- C8 amended: `hybrid_search` never raises, not even on invalid
configuration: there is no validation before the vector-store query, and any
adapter failure (such as the rejection of a negative `top_k`) is caught by the
top-level `except` and turned into the empty result list; business-logic
outcomes never raise either since the function is total. -/
theorem hybrid_search_never_raises (log : ℚ → ℚ) (query : Str) (n_results : Nat)
    (epsilon : ℚ) (include_tfidf unique_citations : Bool) :
    hybrid_search log (.error ()) query n_results epsilon include_tfidf unique_citations
      = [] := rfl


section ConcreteEvaluation

attribute [local semireducible] Rat.add Rat.mul Rat.inv Rat.sub Rat.ofScientific

/-- C2 counterexample: with `unique_citations = true`, two candidates whose
metadata both carry `document_id = ""` are both returned — the empty string is
falsy in Python, is never added to `seen_docs` (line 205), and so the second
candidate is not skipped.  The returned sequence contains two results whose
metadata carry the same `document_id`. -/
theorem hybrid_search_dup_empty_docid_cex :
    (hybrid_search (fun x => x)
        (.ok [⟨['a'], some "", 0⟩, ⟨['b'], some "", 1 / 2⟩])
        ['q'] 5 (1 / 50) false true).map (fun r => r.cand.docId)
      = [some "", some ""] := by decide

/-- C3 counterexample: with `n_results = 0` and one candidate, the size check
`len(final) >= n_results` runs only after appending (line 207), so one result
is returned — more than `n_results`. -/
theorem hybrid_search_n_zero_cex :
    (hybrid_search (fun x => x) (.ok [⟨['a'], some "d", 0⟩])
        ['q'] 0 (1 / 50) false true).length = 1 := by decide

end ConcreteEvaluation

/-! ## Helper lemmas: the deduplication loop -/

/-- The truthy (non-`None`, non-empty) `document_id`s of a candidate list, in
order. -/
def truthyIds (l : List Cand) : List String :=
  l.filterMap (fun c => if truthy c.docId then c.docId else none)

lemma truthyIds_nil : truthyIds [] = [] := rfl

lemma truthyIds_cons (c : Cand) (l : List Cand) :
    truthyIds (c :: l) =
      if truthy c.docId then c.docId.getD "" :: truthyIds l else truthyIds l := by
  by_cases h : truthy c.docId = true
  · cases hd : c.docId with
    | none => rw [hd] at h; simp [truthy] at h
    | some s =>
      rw [hd] at h
      simp [truthyIds, List.filterMap_cons, hd, h]
  · simp only [Bool.not_eq_true] at h
    simp [truthyIds, List.filterMap_cons, h]

lemma truthyIds_reverse (l : List Cand) : truthyIds l.reverse = (truthyIds l).reverse :=
  List.filterMap_reverse _ _

lemma dedupGo_length_le (uniq : Bool) (n : Nat) :
    ∀ (l : List Cand) (seen : List String) (acc : List Cand), acc.length < n →
      (dedupGo uniq n seen acc l).1.length ≤ n := by
  intro l
  induction l with
  | nil => intro seen acc h; simpa [dedupGo] using le_of_lt h
  | cons c cs ih =>
    intro seen acc h
    simp only [dedupGo]
    by_cases hskip : (uniq && isSeen c.docId seen) = true
    · simp only [hskip, if_true]; exact ih seen acc h
    · simp only [hskip, if_false]
      by_cases hbrk : n ≤ (c :: acc).length
      · rw [if_pos hbrk]
        show ((c :: acc).reverse).length ≤ n
        simp only [List.length_cons] at hbrk
        simp only [List.length_reverse, List.length_cons]
        omega
      · rw [if_neg hbrk]
        refine ih _ _ ?_
        simp only [List.length_cons] at hbrk ⊢
        omega

lemma dedupGo_length_le_zero (uniq : Bool) :
    ∀ (l : List Cand) (seen : List String) (acc : List Cand),
      (dedupGo uniq 0 seen acc l).1.length ≤ acc.length + 1 := by
  intro l
  induction l with
  | nil => intro seen acc; simp [dedupGo]
  | cons c cs ih =>
    intro seen acc
    simp only [dedupGo]
    by_cases hskip : (uniq && isSeen c.docId seen) = true
    · simp only [hskip, if_true]
      exact le_trans (ih seen acc) (by omega)
    · simp only [hskip, if_false]
      rw [if_pos (Nat.zero_le _)]
      show ((c :: acc).reverse).length ≤ acc.length + 1
      simp

lemma dedupGo_length_le_input (uniq : Bool) (n : Nat) :
    ∀ (l : List Cand) (seen : List String) (acc : List Cand),
      (dedupGo uniq n seen acc l).1.length ≤ acc.length + l.length := by
  intro l
  induction l with
  | nil => intro seen acc; simp [dedupGo]
  | cons c cs ih =>
    intro seen acc
    simp only [dedupGo]
    by_cases hskip : (uniq && isSeen c.docId seen) = true
    · simp only [hskip, if_true]
      refine le_trans (ih seen acc) ?_
      simp only [List.length_cons]
      omega
    · simp only [hskip, if_false]
      by_cases hbrk : n ≤ (c :: acc).length
      · rw [if_pos hbrk]
        show ((c :: acc).reverse).length ≤ acc.length + (c :: cs).length
        simp only [List.length_reverse, List.length_cons]
        omega
      · rw [if_neg hbrk]
        refine le_trans (ih _ _) ?_
        simp only [List.length_cons]
        omega

lemma hybridDedup_length_le_max (uniq : Bool) (n : Nat) (l : List Cand) :
    (hybridDedup uniq n l).length ≤ max n 1 := by
  cases n with
  | zero => exact le_trans (dedupGo_length_le_zero uniq l [] []) (by simp)
  | succ m =>
    exact le_trans (dedupGo_length_le uniq (m + 1) l [] [] (by simp)) (le_max_left _ _)

lemma hybridDedup_length_le_input (uniq : Bool) (n : Nat) (l : List Cand) :
    (hybridDedup uniq n l).length ≤ l.length := by
  simpa using dedupGo_length_le_input uniq n l [] []

lemma dedupGo_false_take (n : Nat) :
    ∀ (l : List Cand) (seen : List String) (acc : List Cand), acc.length < n →
      (dedupGo false n seen acc l).1 = acc.reverse ++ l.take (n - acc.length) := by
  intro l
  induction l with
  | nil => intro seen acc h; simp [dedupGo]
  | cons c cs ih =>
    intro seen acc h
    simp only [dedupGo, Bool.false_and, Bool.false_eq_true, if_false]
    by_cases hbrk : n ≤ (c :: acc).length
    · rw [if_pos hbrk]
      show ((c :: acc).reverse) = acc.reverse ++ (c :: cs).take (n - acc.length)
      simp only [List.length_cons] at hbrk
      have : n - acc.length = 1 := by omega
      simp [this]
    · rw [if_neg hbrk]
      simp only [List.length_cons] at hbrk
      rw [ih seen (c :: acc) (by simp only [List.length_cons]; omega)]
      have : n - acc.length = (n - (c :: acc).length) + 1 := by
        simp only [List.length_cons]; omega
      rw [this, List.take_succ_cons]
      simp

lemma hybridDedup_false_take (n : Nat) (l : List Cand) :
    hybridDedup false n l = l.take (max n 1) := by
  cases n with
  | zero =>
    cases l with
    | nil => rfl
    | cons c cs => simp [hybridDedup, dedupGo]
  | succ m =>
    have h := dedupGo_false_take (m + 1) l [] [] (by simp)
    simp only [hybridDedup, h, List.reverse_nil, List.nil_append, List.length_nil,
      Nat.sub_zero]
    congr 1
    omega

lemma truthy_iff (d : Option String) : truthy d = true ↔ ∃ s, d = some s ∧ s ≠ "" := by
  cases d with
  | none => simp [truthy]
  | some s => simp [truthy]

lemma dedupGo_nodup (n : Nat) :
    ∀ (l : List Cand) (seen : List String) (acc : List Cand),
      (∀ s ∈ truthyIds acc, s ∈ seen) → (truthyIds acc).Nodup →
      (truthyIds (dedupGo true n seen acc l).1).Nodup := by
  intro l
  induction l with
  | nil =>
    intro seen acc _ hnd
    simpa [dedupGo, truthyIds_reverse] using hnd
  | cons c cs ih =>
    intro seen acc hsub hnd
    simp only [dedupGo, Bool.true_and]
    by_cases hskip : isSeen c.docId seen = true
    · rw [if_pos hskip]
      exact ih seen acc hsub hnd
    · rw [if_neg hskip]
      have hnd2 : (truthyIds (c :: acc)).Nodup := by
        rw [truthyIds_cons]
        by_cases ht : truthy c.docId = true
        · rw [if_pos ht]
          rcases (truthy_iff _).mp ht with ⟨s0, hd, hs0⟩
          refine List.Nodup.cons ?_ hnd
          intro hmem
          have hseen : s0 ∈ seen := hsub _ (by simpa [hd] using hmem)
          have : isSeen c.docId seen = true := by simp [isSeen, hd, hseen]
          exact hskip this
        · rw [if_neg ht]; exact hnd
      have hsub2 : ∀ s ∈ truthyIds (c :: acc),
          s ∈ (if truthy c.docId then c.docId.getD "" :: seen else seen) := by
        intro s hs
        rw [truthyIds_cons] at hs
        by_cases ht : truthy c.docId = true
        · rw [if_pos ht] at hs ⊢
          rcases List.mem_cons.mp hs with h | h
          · exact h ▸ List.mem_cons_self _ _
          · exact List.mem_cons_of_mem _ (hsub _ h)
        · rw [if_neg ht] at hs ⊢
          exact hsub _ hs
      by_cases hbrk : n ≤ (c :: acc).length
      · rw [if_pos hbrk]
        show (truthyIds ((c :: acc).reverse)).Nodup
        rw [truthyIds_reverse]
        exact List.nodup_reverse.mpr hnd2
      · rw [if_neg hbrk]
        exact ih _ _ hsub2 hnd2

/-! ## Helper lemmas: the tie-band pass and the pipeline shape -/

lemma tieGroupsGo_flatten (eps : ℚ) :
    ∀ (rest : List Cand) (anchor : Cand) (cur : List Cand),
      (tieGroupsGo eps anchor cur rest).flatten = anchor :: (cur.reverse ++ rest) := by
  intro rest
  induction rest with
  | nil => intro anchor cur; simp [tieGroupsGo]
  | cons c cs ih =>
    intro anchor cur
    simp only [tieGroupsGo]
    by_cases h : anchor.semantic_score - c.semantic_score ≤ eps
    · rw [if_pos h, ih]
      simp
    · rw [if_neg h]
      simp only [List.flatten_cons, ih]
      simp

lemma tieGroups_flatten (eps : ℚ) (l : List Cand) : (tieGroups eps l).flatten = l := by
  cases l with
  | nil => rfl
  | cons a rest => simp [tieGroups, tieGroupsGo_flatten]

lemma tieBandRerank_length (eps : ℚ) (l : List Cand) :
    (tieBandRerank eps l).length = l.length := by
  rw [tieBandRerank, List.length_flatten, List.map_map]
  have h2 : (tieGroups eps l).map (List.length ∘ List.insertionSort kwGE)
      = (tieGroups eps l).map List.length :=
    List.map_congr_left (fun g _ => (List.perm_insertionSort kwGE g).length_eq)
  rw [h2, ← List.length_flatten, tieGroups_flatten]

lemma mkCands_length_le :
    ∀ (r : List Raw) (s k t : List ℚ), (mkCands r s k t).length ≤ r.length := by
  intro r
  induction r with
  | nil => intro s k t; cases s <;> cases k <;> cases t <;> simp [mkCands]
  | cons a rs ih =>
    intro s k t
    cases s with
    | nil => cases k <;> cases t <;> simp [mkCands]
    | cons s0 ss =>
      cases k with
      | nil => cases t <;> simp [mkCands]
      | cons k0 ks =>
        cases t with
        | nil => simp [mkCands]
        | cons t0 ts =>
          simp only [mkCands, List.length_cons]
          exact Nat.succ_le_succ (ih ss ks ts)

/-- The candidate sequence of `hybrid_search` after scoring, the semantic
sort and the tie-band re-rank (lines 160-196), as a function of the raw
query reply. -/
def rankedCandidates (log : ℚ → ℚ) (raws : List Raw) (query : Str) (eps : ℚ)
    (include_tfidf : Bool) : List Cand :=
  tieBandRerank eps (List.insertionSort semGE (mkCands raws
    (normalize_scores (raws.map (fun r => 1 - r.dist)))
    (normalize_scores (raws.map (fun r => keyword_overlap_score query r.text)))
    (if include_tfidf then
        normalize_scores (compute_tfidf_scores log query (raws.map (fun r => r.text)))
      else List.replicate raws.length 0)))

lemma hybrid_search_ok (log : ℚ → ℚ) (raws : List Raw) (query : Str) (n : Nat)
    (eps : ℚ) (inc u : Bool) :
    hybrid_search log (.ok raws) query n eps inc u =
      if raws.isEmpty then []
      else (hybridDedup u n (rankedCandidates log raws query eps inc)).enum.map
        (fun p => ⟨p.2, p.1 + 1⟩) := rfl

lemma rankedCandidates_length_le (log : ℚ → ℚ) (raws : List Raw) (query : Str)
    (eps : ℚ) (inc : Bool) :
    (rankedCandidates log raws query eps inc).length ≤ raws.length := by
  rw [rankedCandidates, tieBandRerank_length]
  rw [(List.perm_insertionSort semGE _).length_eq]
  exact mkCands_length_le _ _ _ _

lemma enum_rank_map_cand (l : List Cand) :
    ((l.enum.map (fun p => (⟨p.2, p.1 + 1⟩ : Ranked))).map (fun r => r.cand)) = l := by
  rw [List.map_map]
  exact List.enum_map_snd l

lemma enum_rank_map_rank (l : List Cand) :
    ((l.enum.map (fun p => (⟨p.2, p.1 + 1⟩ : Ranked))).map (fun r => r.rank))
      = List.range' 1 l.length := by
  rw [List.map_map]
  have h1 : ((fun r : Ranked => r.rank) ∘ fun p : Nat × Cand => (⟨p.2, p.1 + 1⟩ : Ranked))
      = (fun x => x + 1) ∘ Prod.fst := rfl
  rw [h1, ← List.map_map, List.enum_map_fst, List.range'_eq_map_range]
  refine List.map_congr_left ?_
  intro x _
  omega

lemma enum_rank_length (l : List Cand) :
    (l.enum.map (fun p => (⟨p.2, p.1 + 1⟩ : Ranked))).length = l.length := by
  simp

/-- C2 amended: with `unique_citations = true` the result sequence never
contains two results with the same truthy (non-`None`, non-empty)
`document_id` — the list of truthy ids of the output has no duplicate; a
falsy `document_id` (missing, `None` or `""`) is never recorded as emitted,
so results lacking an id may repeat (see the counterexample).  With
`unique_citations = false` no candidate is skipped: the walk keeps every
candidate it reaches, stopping only at the size cap, so the output is the
prefix of the candidate list of length `min (max n_results 1) (number of
candidates)`. -/
theorem unique_citations_dedup_amended :
    (∀ (log : ℚ → ℚ) (qres : Except Unit (List Raw)) (query : Str) (n : Nat)
        (eps : ℚ) (inc : Bool),
      (truthyIds ((hybrid_search log qres query n eps inc true).map
          (fun r => r.cand))).Nodup) ∧
    (∀ (n : Nat) (l : List Cand), hybridDedup false n l = l.take (max n 1)) := by
  constructor
  · intro log qres query n eps inc
    cases qres with
    | error e => simp [hybrid_search, truthyIds]
    | ok raws =>
      rw [hybrid_search_ok]
      by_cases h : raws.isEmpty
      · rw [if_pos h]; simp [truthyIds]
      · rw [if_neg h, enum_rank_map_cand]
        exact dedupGo_nodup n _ [] [] (by intro s hs; cases hs) List.nodup_nil
  · exact fun n l => hybridDedup_false_take n l

/-- C3 amended: the number of results of `hybrid_search` is at most
`max n_results 1` (the `len(final) >= n_results` check runs only after an
append, so `n_results = 0` still yields one result — see the counterexample;
for `n_results ≥ 1` the bound is exactly `n_results`), at most the number of
candidates returned by the vector-store query, and the `rank` fields are
exactly `1, 2, ..., len(results)` in order. -/
theorem hybrid_search_count_rank_amended (log : ℚ → ℚ) (raws : List Raw) (query : Str)
    (n : Nat) (eps : ℚ) (inc u : Bool) :
    (hybrid_search log (.ok raws) query n eps inc u).length ≤ max n 1 ∧
    (hybrid_search log (.ok raws) query n eps inc u).length ≤ raws.length ∧
    (hybrid_search log (.ok raws) query n eps inc u).map (fun r => r.rank)
      = List.range' 1 (hybrid_search log (.ok raws) query n eps inc u).length := by
  rw [hybrid_search_ok]
  by_cases h : raws.isEmpty
  · rw [if_pos h]; simp
  · rw [if_neg h]
    refine ⟨?_, ?_, ?_⟩
    · rw [enum_rank_length]
      exact hybridDedup_length_le_max u n _
    · rw [enum_rank_length]
      exact le_trans (hybridDedup_length_le_input u n _)
        (le_trans (le_of_eq (tieBandRerank_length eps _))
          (le_trans (le_of_eq (List.perm_insertionSort semGE _).length_eq)
            (mkCands_length_le _ _ _ _)))
    · rw [enum_rank_map_rank, enum_rank_length]

/-! ## Helper lemmas: reaching a candidate in the deduplication walk -/

lemma dedupGo_append (uniq : Bool) (n : Nat) :
    ∀ (l1 : List Cand) (seen : List String) (acc : List Cand) (l2 : List Cand),
      (dedupGo uniq n seen acc l1).1.length < n →
      dedupGo uniq n seen acc (l1 ++ l2)
        = dedupGo uniq n (dedupGo uniq n seen acc l1).2
            (dedupGo uniq n seen acc l1).1.reverse l2 := by
  intro l1
  induction l1 with
  | nil =>
    intro seen acc l2 _
    simp [dedupGo]
  | cons c cs ih =>
    intro seen acc l2 hlen
    by_cases hskip : (uniq && isSeen c.docId seen) = true
    · have hgo : dedupGo uniq n seen acc (c :: cs) = dedupGo uniq n seen acc cs := by
        simp only [dedupGo]; rw [if_pos hskip]
      have hgoL : dedupGo uniq n seen acc (c :: (cs ++ l2))
          = dedupGo uniq n seen acc (cs ++ l2) := by
        simp only [dedupGo]; rw [if_pos hskip]
      rw [List.cons_append, hgoL, hgo]
      exact ih seen acc l2 (hgo ▸ hlen)
    · by_cases hbrk : n ≤ (c :: acc).length
      · have hgo : dedupGo uniq n seen acc (c :: cs)
            = ((c :: acc).reverse,
               if uniq && truthy c.docId then c.docId.getD "" :: seen else seen) := by
          simp only [dedupGo]; rw [if_neg hskip, if_pos hbrk]
        exfalso
        rw [hgo] at hlen
        simp only [List.length_reverse, List.length_cons] at hlen hbrk
        omega
      · have hgo : dedupGo uniq n seen acc (c :: cs)
            = dedupGo uniq n
                (if uniq && truthy c.docId then c.docId.getD "" :: seen else seen)
                (c :: acc) cs := by
          simp only [dedupGo]; rw [if_neg hskip, if_neg hbrk]
        have hgoL : dedupGo uniq n seen acc (c :: (cs ++ l2))
            = dedupGo uniq n
                (if uniq && truthy c.docId then c.docId.getD "" :: seen else seen)
                (c :: acc) (cs ++ l2) := by
          simp only [dedupGo]; rw [if_neg hskip, if_neg hbrk]
        rw [List.cons_append, hgoL, hgo]
        exact ih _ _ l2 (hgo ▸ hlen)

lemma dedupGo_acc_mem (uniq : Bool) (n : Nat) :
    ∀ (l : List Cand) (seen : List String) (acc : List Cand) (c : Cand),
      c ∈ acc → c ∈ (dedupGo uniq n seen acc l).1 := by
  intro l
  induction l with
  | nil =>
    intro seen acc c hc
    simpa [dedupGo] using hc
  | cons d ds ih =>
    intro seen acc c hc
    simp only [dedupGo]
    by_cases hskip : (uniq && isSeen d.docId seen) = true
    · rw [if_pos hskip]; exact ih seen acc c hc
    · rw [if_neg hskip]
      by_cases hbrk : n ≤ (d :: acc).length
      · rw [if_pos hbrk]
        show c ∈ (d :: acc).reverse
        exact List.mem_reverse.mpr (List.mem_cons_of_mem _ hc)
      · rw [if_neg hbrk]
        exact ih _ _ c (List.mem_cons_of_mem _ hc)

lemma dedupGo_seen_sound (uniq : Bool) (n : Nat) :
    ∀ (l : List Cand) (seen : List String) (acc : List Cand),
      (∀ s ∈ seen, s ≠ "") → ∀ s ∈ (dedupGo uniq n seen acc l).2, s ≠ "" := by
  intro l
  induction l with
  | nil =>
    intro seen acc h
    simpa [dedupGo] using h
  | cons c cs ih =>
    intro seen acc h
    have hseen2 : ∀ s ∈ (if uniq && truthy c.docId then c.docId.getD "" :: seen else seen),
        s ≠ "" := by
      by_cases ht : (uniq && truthy c.docId) = true
      · rw [if_pos ht]
        intro s hs
        rcases List.mem_cons.mp hs with hs | hs
        · rcases (truthy_iff c.docId).mp (Bool.and_elim_right ht) with ⟨s0, hd, hs0⟩
          rw [hs, hd]
          simpa using hs0
        · exact h s hs
      · rw [if_neg ht]; exact h
    simp only [dedupGo]
    by_cases hskip : (uniq && isSeen c.docId seen) = true
    · rw [if_pos hskip]; exact ih seen acc h
    · rw [if_neg hskip]
      by_cases hbrk : n ≤ (c :: acc).length
      · rw [if_pos hbrk]
        exact hseen2
      · rw [if_neg hbrk]
        exact ih _ _ hseen2

/-- C9: with `unique_citations = true`, a candidate whose metadata has a
missing/`None` or empty-string `document_id` is treated as its own unique key:
its id is never added to `seen_docs` (line 205: the falsy check — the set can
never contain `""`, and `None` is excluded because the set holds strings), it
is never skipped (line 202: `None in seen_docs` is false, and `"" in
seen_docs` is false because `""` is never added), so every such candidate
reached before `n_results` is filled appears in the results — in particular
two candidates both lacking a `document_id` can both be returned (see the
witness). -/
theorem falsy_docid_own_key (n : Nat) (l1 : List Cand) (c : Cand) (l2 : List Cand)
    (hfalsy : c.docId = none ∨ c.docId = some "")
    (hreach : (hybridDedup true n l1).length < n) :
    c ∈ hybridDedup true n (l1 ++ c :: l2) ∧
    ∀ s ∈ (dedupGo true n [] [] (l1 ++ c :: l2)).2, s ≠ "" := by
  refine ⟨?_, dedupGo_seen_sound true n _ [] [] (by intro s hs; cases hs)⟩
  rw [hybridDedup, dedupGo_append true n l1 [] [] (c :: l2) hreach]
  have hseen : ∀ s ∈ (dedupGo true n [] [] l1).2, s ≠ "" :=
    dedupGo_seen_sound true n l1 [] [] (by intro s hs; cases hs)
  have hnoskip : (true && isSeen c.docId (dedupGo true n [] [] l1).2) = false := by
    rcases hfalsy with h | h
    · simp [isSeen, h]
    · simp only [Bool.true_and, isSeen, h, decide_eq_false_iff_not]
      intro hmem
      exact hseen _ hmem rfl
  simp only [dedupGo, hnoskip, Bool.false_eq_true, if_false]
  by_cases hbrk : n ≤ (c :: (dedupGo true n [] [] l1).1.reverse).length
  · rw [if_pos hbrk]
    show c ∈ (c :: (dedupGo true n [] [] l1).1.reverse).reverse
    exact List.mem_reverse.mpr (List.mem_cons_self _ _)
  · rw [if_neg hbrk]
    exact dedupGo_acc_mem true n _ _ _ c (List.mem_cons_self _ _)

/-- C9 witness: two candidates both lacking a `document_id` are both
returned. -/
theorem falsy_docid_own_key_witness :
    (⟨['a'], none, 0, 0, 0, 0⟩ : Cand) ∈
      hybridDedup true 2 ([] ++ (⟨['a'], none, 0, 0, 0, 0⟩ : Cand) ::
        [⟨['b'], none, 0, 0, 0, 0⟩]) ∧
    (⟨['b'], none, 0, 0, 0, 0⟩ : Cand) ∈
      hybridDedup true 2 ([⟨['a'], none, 0, 0, 0, 0⟩] ++ (⟨['b'], none, 0, 0, 0, 0⟩ : Cand) :: []) :=
  ⟨(falsy_docid_own_key 2 [] _ _ (Or.inl rfl) (by decide)).1,
   (falsy_docid_own_key 2 [⟨['a'], none, 0, 0, 0, 0⟩] _ _ (Or.inl rfl) (by decide)).1⟩

/-! ## Helper lemmas: tie-band group structure -/

instance : Inhabited Cand := ⟨⟨[], none, 0, 0, 0, 0⟩⟩

lemma tieGroupsGo_first_head (eps : ℚ) :
    ∀ (rest : List Cand) (anchor : Cand) (cur : List Cand),
      ∃ t gs, tieGroupsGo eps anchor cur rest = (anchor :: t) :: gs := by
  intro rest
  induction rest with
  | nil => intro anchor cur; exact ⟨cur.reverse, [], rfl⟩
  | cons c cs ih =>
    intro anchor cur
    simp only [tieGroupsGo]
    by_cases h : anchor.semantic_score - c.semantic_score ≤ eps
    · rw [if_pos h]; exact ih anchor (c :: cur)
    · rw [if_neg h]; exact ⟨cur.reverse, tieGroupsGo eps c [] cs, rfl⟩

lemma tieGroupsGo_mem_cons (eps : ℚ) :
    ∀ (rest : List Cand) (anchor : Cand) (cur : List Cand),
      ∀ g ∈ tieGroupsGo eps anchor cur rest, ∃ a t, g = a :: t := by
  intro rest
  induction rest with
  | nil =>
    intro anchor cur g hg
    simp only [tieGroupsGo, List.mem_singleton] at hg
    exact ⟨anchor, cur.reverse, hg⟩
  | cons c cs ih =>
    intro anchor cur g hg
    simp only [tieGroupsGo] at hg
    by_cases h : anchor.semantic_score - c.semantic_score ≤ eps
    · rw [if_pos h] at hg; exact ih anchor (c :: cur) g hg
    · rw [if_neg h] at hg
      rcases List.mem_cons.mp hg with hg | hg
      · exact ⟨anchor, cur.reverse, hg⟩
      · exact ih c [] g hg

lemma tieGroupsGo_within (eps : ℚ) (heps : 0 ≤ eps) :
    ∀ (rest : List Cand) (anchor : Cand) (cur : List Cand),
      (∀ x ∈ cur, anchor.semantic_score - x.semantic_score ≤ eps) →
      (∀ x ∈ cur, x.semantic_score ≤ anchor.semantic_score) →
      (∀ x ∈ rest, x.semantic_score ≤ anchor.semantic_score) →
      rest.Pairwise semGE →
      ∀ g ∈ tieGroupsGo eps anchor cur rest, ∀ x ∈ g,
        x.semantic_score ≤ g.headI.semantic_score ∧
        g.headI.semantic_score - x.semantic_score ≤ eps := by
  intro rest
  induction rest with
  | nil =>
    intro anchor cur hcur1 hcur2 _ _ g hg x hx
    simp only [tieGroupsGo, List.mem_singleton] at hg
    subst hg
    simp only [List.headI]
    rcases List.mem_cons.mp hx with hx | hx
    · subst hx; exact ⟨le_refl _, by linarith⟩
    · have hx' := List.mem_reverse.mp hx
      exact ⟨hcur2 x hx', hcur1 x hx'⟩
  | cons c cs ih =>
    intro anchor cur hcur1 hcur2 hrest hsort g hg x hx
    simp only [tieGroupsGo] at hg
    rcases List.pairwise_cons.mp hsort with ⟨hc_cs, hsort_cs⟩
    by_cases h : anchor.semantic_score - c.semantic_score ≤ eps
    · rw [if_pos h] at hg
      refine ih anchor (c :: cur) ?_ ?_ ?_ hsort_cs g hg x hx
      · intro y hy
        rcases List.mem_cons.mp hy with hy | hy
        · subst hy; exact h
        · exact hcur1 y hy
      · intro y hy
        rcases List.mem_cons.mp hy with hy | hy
        · subst hy; exact hrest _ (List.mem_cons_self _ _)
        · exact hcur2 y hy
      · intro y hy; exact hrest y (List.mem_cons_of_mem _ hy)
    · rw [if_neg h] at hg
      rcases List.mem_cons.mp hg with hg | hg
      · subst hg
        simp only [List.headI]
        rcases List.mem_cons.mp hx with hx | hx
        · subst hx; exact ⟨le_refl _, by linarith⟩
        · have hx' := List.mem_reverse.mp hx
          exact ⟨hcur2 x hx', hcur1 x hx'⟩
      · refine ih c [] ?_ ?_ ?_ hsort_cs g hg x hx
        · intro y hy; cases hy
        · intro y hy; cases hy
        · intro y hy; exact hc_cs y hy

lemma tieGroupsGo_chain (eps : ℚ) :
    ∀ (rest : List Cand) (anchor : Cand) (cur : List Cand),
      (tieGroupsGo eps anchor cur rest).Chain'
        (fun g g' => eps < g.headI.semantic_score - g'.headI.semantic_score) := by
  intro rest
  induction rest with
  | nil => intro anchor cur; simp [tieGroupsGo]
  | cons c cs ih =>
    intro anchor cur
    simp only [tieGroupsGo]
    by_cases h : anchor.semantic_score - c.semantic_score ≤ eps
    · rw [if_pos h]; exact ih anchor (c :: cur)
    · rw [if_neg h]
      rcases tieGroupsGo_first_head eps cs c [] with ⟨t, gs, heq⟩
      rw [heq]
      refine List.chain'_cons.mpr ⟨?_, heq ▸ ih c []⟩
      simp only [List.headI]
      linarith [not_le.mp h]

/-- C1: after the semantic sort, the tie-band pass partitions the sequence
into contiguous non-empty groups whose concatenation is exactly the sorted
sequence (boundaries and group order unchanged); every member of a group is
within `epsilon` of the group's anchor (its first element in the sorted
order); a new group starts exactly when a candidate differs from the current
anchor by more than `epsilon` — consecutive anchors differ by more than
`epsilon`; and the re-ranked sequence is the concatenation of the groups,
each re-sorted by `keyword_score` descending (a permutation of the group,
sorted by descending `keyword_score`). -/
theorem tie_band_grouping_spec (l : List Cand) (eps : ℚ) (heps : 0 ≤ eps) :
    (tieGroups eps (List.insertionSort semGE l)).flatten = List.insertionSort semGE l ∧
    (∀ g ∈ tieGroups eps (List.insertionSort semGE l), g ≠ []) ∧
    (∀ g ∈ tieGroups eps (List.insertionSort semGE l), ∀ x ∈ g,
      |x.semantic_score - g.headI.semantic_score| ≤ eps) ∧
    (tieGroups eps (List.insertionSort semGE l)).Chain'
      (fun g g' => eps < g.headI.semantic_score - g'.headI.semantic_score) ∧
    tieBandRerank eps (List.insertionSort semGE l)
      = ((tieGroups eps (List.insertionSort semGE l)).map (List.insertionSort kwGE)).flatten ∧
    (∀ g ∈ tieGroups eps (List.insertionSort semGE l),
      (List.insertionSort kwGE g).Perm g ∧ (List.insertionSort kwGE g).Sorted kwGE) := by
  have hsorted : (List.insertionSort semGE l).Pairwise semGE :=
    List.sorted_insertionSort semGE l
  refine ⟨tieGroups_flatten eps _, ?_, ?_, ?_, rfl, ?_⟩
  · intro g hg
    cases hs : List.insertionSort semGE l with
    | nil => rw [hs] at hg; cases hg
    | cons a rest =>
      rw [hs] at hg
      rcases tieGroupsGo_mem_cons eps rest a [] g hg with ⟨x, t, rfl⟩
      simp
  · intro g hg x hx
    cases hs : List.insertionSort semGE l with
    | nil => rw [hs] at hg; cases hg
    | cons a rest =>
      rw [hs] at hg
      rw [hs] at hsorted
      rcases List.pairwise_cons.mp hsorted with ⟨ha, hrest⟩
      have h := tieGroupsGo_within eps heps rest a []
        (by intro y hy; cases hy) (by intro y hy; cases hy)
        (by intro y hy; exact ha y hy) hrest g hg x hx
      rw [abs_sub_comm, abs_of_nonneg (by linarith [h.1])]
      exact h.2
  · cases hs : List.insertionSort semGE l with
    | nil => simp [tieGroups]
    | cons a rest => exact tieGroupsGo_chain eps rest a []
  · intro g _
    exact ⟨List.perm_insertionSort kwGE g, List.sorted_insertionSort kwGE g⟩

/-- C1 witness: the tie-band grouping property at a concrete candidate list
and `epsilon = 1/50`. -/
theorem tie_band_grouping_spec_witness :
    (tieGroups (1 / 50) (List.insertionSort semGE
        [⟨['a'], none, 1, 0, 0, 1⟩, ⟨['b'], none, 0, 1, 0, 0⟩])).flatten
      = List.insertionSort semGE
        [⟨['a'], none, 1, 0, 0, 1⟩, ⟨['b'], none, 0, 1, 0, 0⟩] ∧
    (∀ g ∈ tieGroups (1 / 50) (List.insertionSort semGE
        [⟨['a'], none, 1, 0, 0, 1⟩, ⟨['b'], none, 0, 1, 0, 0⟩]), ∀ x ∈ g,
      |x.semantic_score - g.headI.semantic_score| ≤ 1 / 50) :=
  have h := tie_band_grouping_spec
    [⟨['a'], none, 1, 0, 0, 1⟩, ⟨['b'], none, 0, 1, 0, 0⟩] (1 / 50) (by norm_num)
  ⟨h.1, h.2.2.1⟩


/-! ## Helper lemmas: TF-IDF -/

lemma sum_toFinset_filter_eq (l : List Str) (p : Str → Prop) [DecidablePred p] (f : Str → ℚ) :
    ∑ t in l.toFinset.filter p, f t
      = ((l.dedup.filter (fun t => decide (p t))).map f).sum := by
  have h1 : l.toFinset = l.dedup.toFinset := by
    ext t
    simp [List.mem_toFinset, List.mem_dedup]
  have h2 : l.toFinset.filter p = (l.dedup.filter (fun t => decide (p t))).toFinset := by
    rw [h1, List.toFinset_filter]
    refine Finset.filter_congr ?_
    intro t _
    simp
  rw [h2, List.sum_toFinset f ((List.nodup_dedup l).filter _)]

/-- C6: `_compute_tfidf_scores` computes, for each candidate document with at
least one token, the sum over the query's distinct terms present in the
document of `tf(t) * idf(t)` with `tf(t) = count(t) / |doc tokens|` and
`idf(t) = log((N + 1) / (df(t) + 1)) + 1`, where `N` is the number of
candidate documents and `df(t)` the number of candidate documents containing
`t` at least once; a candidate with zero tokens scores `0`, and a token-free
query yields `0` for every candidate.  `log` stands for `math.log`; the
equality holds for every function `log`, in particular the real logarithm. -/
theorem compute_tfidf_scores_spec (log : ℚ → ℚ) (query : Str) (docs : List Str) :
    (compute_tfidf_scores log query docs).length = docs.length ∧
    (tokenize query = [] →
      compute_tfidf_scores log query docs = List.replicate docs.length 0) ∧
    (tokenize query ≠ [] →
      compute_tfidf_scores log query docs = docs.map (fun d =>
        if tokenize d = [] then 0
        else
          ∑ t in (tokenize query).toFinset.filter (fun t => t ∈ tokenize d),
            ((tokenize d).count t : ℚ) / ((tokenize d).length : ℚ) *
              (log (((docs.length : ℚ) + 1) /
                ((docs.countP (fun d2 => decide (t ∈ tokenize d2)) : ℚ) + 1)) + 1))) := by
  refine ⟨?_, ?_, ?_⟩
  · rw [compute_tfidf_scores]
    by_cases h : ((tokenize query).dedup.isEmpty || docs.isEmpty) = true
    · rw [if_pos h]; simp
    · rw [if_neg h]; simp
  · intro hq
    have h : ((tokenize query).dedup.isEmpty || docs.isEmpty) = true := by
      simp [hq]
    rw [compute_tfidf_scores, if_pos h]
  · intro hq
    by_cases hd : docs = []
    · subst hd
      simp [compute_tfidf_scores]
    · have h : ((tokenize query).dedup.isEmpty || docs.isEmpty) = false := by
        simp only [Bool.or_eq_false_iff]
        constructor
        · simpa [List.isEmpty_iff, List.dedup_eq_nil] using hq
        · simpa [List.isEmpty_iff] using hd
      rw [compute_tfidf_scores]
      rw [if_neg (by simp [h])]
      rw [List.map_map]
      refine List.map_congr_left ?_
      intro d hdm
      show (if (tokenize d).isEmpty = true then (0:ℚ) else _) = _
      by_cases ht : (tokenize d).isEmpty = true
      · rw [if_pos ht, if_pos (List.isEmpty_iff.mp ht)]
      · rw [if_neg ht, if_neg (by simpa [List.isEmpty_iff] using ht)]
        rw [sum_toFinset_filter_eq]
        refine congrArg List.sum ?_
        refine List.map_congr_left ?_
        intro t htm
        simp only [List.countP_map, List.length_map]
        rfl

/-! ## Helper lemmas: stripping -/

lemma dropWhile_head?_not (p : Char → Bool) :
    ∀ (l : Str) (c : Char), (l.dropWhile p).head? = some c → p c = false := by
  intro l
  induction l with
  | nil => intro c h; cases h
  | cons a t ih =>
    intro c h
    rw [List.dropWhile_cons] at h
    by_cases ha : p a = true
    · rw [if_pos ha] at h; exact ih c h
    · rw [if_neg ha] at h
      simp only [List.head?_cons, Option.some.injEq] at h
      subst h
      simpa using ha

lemma suffix_getLast? {l₁ l₂ : Str} (h : l₁ <:+ l₂) {c : Char}
    (hc : l₁.getLast? = some c) : l₂.getLast? = some c := by
  rcases h with ⟨s, rfl⟩
  have hne : l₁ ≠ [] := by
    intro he; rw [he] at hc; cases hc
  rw [List.getLast?_append_of_ne_nil s hne]
  exact hc

lemma stripChars_head?_not (l : Str) (c : Char) (h : (stripChars l).head? = some c) :
    ws c = false := by
  rw [stripChars, List.head?_reverse] at h
  have hsub := List.dropWhile_suffix (l := (l.dropWhile ws).reverse) ws
  have h2 := suffix_getLast? hsub h
  rw [List.getLast?_reverse] at h2
  exact dropWhile_head?_not ws _ c h2

lemma stripChars_getLast?_not (l : Str) (c : Char) (h : (stripChars l).getLast? = some c) :
    ws c = false := by
  rw [stripChars, List.getLast?_reverse] at h
  exact dropWhile_head?_not ws _ c h

lemma stripChars_eq_self (l : Str) (hh : ∀ c, l.head? = some c → ws c = false)
    (hl : ∀ c, l.getLast? = some c → ws c = false) : stripChars l = l := by
  cases l with
  | nil => rfl
  | cons a t =>
    have ha : ws a = false := hh a rfl
    rw [stripChars, List.dropWhile_cons, if_neg (by simp [ha])]
    cases hr : (a :: t).reverse with
    | nil => exact absurd hr (by simp)
    | cons d r' =>
      have hd : ws d = false := by
        refine hl d ?_
        rw [← List.head?_reverse, hr, List.head?_cons]
      have h3 : List.dropWhile ws (d :: r') = d :: r' := by
        rw [List.dropWhile_cons, if_neg (by simp [hd])]
      rw [h3, ← hr, List.reverse_reverse]

lemma stripChars_idem (l : Str) : stripChars (stripChars l) = stripChars l :=
  stripChars_eq_self (stripChars l) (stripChars_head?_not l) (stripChars_getLast?_not l)

lemma mem_split_into_sentences {t S : Str} (h : S ∈ split_into_sentences t) :
    stripChars S = S ∧ S ≠ [] := by
  rw [split_into_sentences] at h
  rcases List.mem_filter.mp h with ⟨hmem, hne⟩
  rcases List.mem_map.mp hmem with ⟨x, _, rfl⟩
  refine ⟨stripChars_idem x, ?_⟩
  simpa [List.isEmpty_iff] using hne

/-- C10: `chunk_size` is not a hard bound on emitted chunk length: when the
cleaned text consists of a single sentence of length `L > chunk_size`,
`split_text_into_chunks` emits exactly one chunk whose text is that sentence
of length `L` — the size check only decides when a buffer closes and never
truncates a sentence. -/
theorem chunk_size_not_hard_bound (chunk_size chunk_overlap : Nat) (text S : Str)
    (h0 : stripChars text ≠ [])
    (h1 : split_into_sentences (clean_text text) = [S])
    (h2 : chunk_size < S.length) :
    split_text_into_chunks chunk_size chunk_overlap text
      = [⟨S, 0, 0, S.length⟩] ∧ chunk_size < S.length := by
  have hS := mem_split_into_sentences (h1 ▸ List.mem_singleton_self S)
  refine ⟨?_, h2⟩
  rw [split_text_into_chunks, if_neg (by simpa [List.isEmpty_iff] using h0), h1]
  show chunkLoop chunk_size chunk_overlap [S] [] 0 [] = [⟨S, 0, 0, S.length⟩]
  rw [chunkLoop, if_neg (by simp)]
  show chunkLoop chunk_size chunk_overlap [] S 0 [] = [⟨S, 0, 0, S.length⟩]
  rw [chunkLoop, if_neg (by simp [List.isEmpty_iff, hS.1, hS.2]), hS.1]
  simp

/-- C10 witness: a six-character single-sentence text with `chunk_size = 3`
is emitted as one chunk of length 6. -/
theorem chunk_size_not_hard_bound_witness :
    split_text_into_chunks 3 2 ['a', 'b', 'c', 'd', 'e', 'f']
      = [⟨['a', 'b', 'c', 'd', 'e', 'f'], 0, 0, 6⟩] ∧
    3 < (['a', 'b', 'c', 'd', 'e', 'f'] : Str).length :=
  chunk_size_not_hard_bound 3 2 ['a', 'b', 'c', 'd', 'e', 'f']
    ['a', 'b', 'c', 'd', 'e', 'f'] (by decide) (by decide) (by decide)

/-! ## Helper lemmas: the overlap tail -/

/-- The space-join of a list of sentences, as `_get_overlap_text` assembles
accepted sentences (`sentence + " " + overlap_text` repeatedly, final strip
removing the one trailing space). -/
def joinSp : List Str → Str
  | [] => []
  | [s] => s
  | s :: rest => s ++ ' ' :: joinSp rest

/-- The loop accumulator after accepting `taken` (most recently accepted
first... in original order): empty, or the join with one trailing space. -/
def accOf : List Str → Str
  | [] => []
  | s :: ts => joinSp (s :: ts) ++ [' ']

lemma joinSp_cons (s : Str) (rest : List Str) (h : rest ≠ []) :
    joinSp (s :: rest) = s ++ ' ' :: joinSp rest := by
  cases rest with
  | nil => exact absurd rfl h
  | cons t r => rfl

lemma accOf_cons (s : Str) (ts : List Str) :
    accOf (s :: ts) = s ++ ' ' :: accOf ts := by
  cases ts with
  | nil => rfl
  | cons t r =>
    show joinSp (s :: t :: r) ++ [' '] = s ++ ' ' :: accOf (t :: r)
    rw [joinSp_cons s (t :: r) (by simp)]
    show (s ++ ' ' :: joinSp (t :: r)) ++ [' '] = s ++ ' ' :: (joinSp (t :: r) ++ [' '])
    simp

lemma accOf_append_length (s : Str) (ts : List Str) :
    (accOf ts ++ s).length = (joinSp (s :: ts)).length := by
  cases ts with
  | nil => simp [accOf, joinSp]
  | cons t r =>
    rw [joinSp_cons s (t :: r) (by simp)]
    show (accOf (t :: r) ++ s).length = (s ++ ' ' :: joinSp (t :: r)).length
    show ((joinSp (t :: r) ++ [' ']) ++ s).length = (s ++ ' ' :: joinSp (t :: r)).length
    simp only [List.length_append, List.length_cons, List.length_nil]
    omega

lemma overlapLoop_greedy (C : Nat) :
    ∀ (pending taken : List Str), (joinSp taken).length ≤ C →
      ∃ k, k ≤ pending.length ∧
        overlapLoop C pending (accOf taken) = accOf ((pending.take k).reverse ++ taken) ∧
        (joinSp ((pending.take k).reverse ++ taken)).length ≤ C ∧
        (k < pending.length →
          C < (joinSp ((pending.take (k + 1)).reverse ++ taken)).length) := by
  intro pending
  induction pending with
  | nil =>
    intro taken h
    refine ⟨0, Nat.le_refl _, ?_, by simpa using h, ?_⟩
    · simp [overlapLoop]
    · intro hlt; cases hlt
  | cons s rest ih =>
    intro taken h
    simp only [overlapLoop]
    by_cases hc : (accOf taken ++ s).length ≤ C
    · have hc' : (joinSp (s :: taken)).length ≤ C := by
        rw [← accOf_append_length]; exact hc
      rw [if_pos hc, ← accOf_cons]
      rcases ih (s :: taken) hc' with ⟨k, hk, heq, hle, hfail⟩
      refine ⟨k + 1, by simpa using Nat.succ_le_succ hk, ?_, ?_, ?_⟩
      · rw [List.take_succ_cons, List.reverse_cons, List.append_assoc,
          List.singleton_append]
        exact heq
      · rw [List.take_succ_cons, List.reverse_cons, List.append_assoc,
          List.singleton_append]
        exact hle
      · intro hlt
        have hk' : k < rest.length := by simpa using hlt
        have hfk := hfail hk'
        rw [List.take_succ_cons, List.reverse_cons, List.append_assoc,
          List.singleton_append]
        exact hfk
    · rw [if_neg hc]
      refine ⟨0, Nat.zero_le _, by simp, by simpa using h, ?_⟩
      intro _
      rw [List.take_succ_cons, List.take_zero, List.reverse_cons,
        List.reverse_nil, List.nil_append, List.singleton_append]
      rw [← accOf_append_length]
      omega

lemma stripped_head_not {s : Str} (hs : stripChars s = s) :
    ∀ c, s.head? = some c → ws c = false := by
  intro c h
  exact stripChars_head?_not s c (by rw [hs]; exact h)

lemma stripped_getLast_not {s : Str} (hs : stripChars s = s) :
    ∀ c, s.getLast? = some c → ws c = false := by
  intro c h
  exact stripChars_getLast?_not s c (by rw [hs]; exact h)

lemma joinSp_ne_nil : ∀ (ts : List Str), ts ≠ [] → (∀ s ∈ ts, s ≠ []) →
    joinSp ts ≠ [] := by
  intro ts hts hmem
  cases ts with
  | nil => exact absurd rfl hts
  | cons s rest =>
    cases rest with
    | nil => exact hmem s (List.mem_singleton_self s)
    | cons t r =>
      rw [joinSp_cons s (t :: r) (by simp)]
      simp

lemma joinSp_head? (s : Str) (rest : List Str) (hs : s ≠ []) :
    (joinSp (s :: rest)).head? = s.head? := by
  cases rest with
  | nil => rfl
  | cons t r =>
    rw [joinSp_cons s (t :: r) (by simp)]
    exact List.head?_append_of_ne_nil s hs

lemma joinSp_getLast?_mem : ∀ (ts : List Str), ts ≠ [] → (∀ s ∈ ts, s ≠ []) →
    ∃ x ∈ ts, (joinSp ts).getLast? = x.getLast? := by
  intro ts
  induction ts with
  | nil => intro h _; exact absurd rfl h
  | cons s rest ih =>
    intro _ hmem
    cases rest with
    | nil => exact ⟨s, List.mem_singleton_self s, rfl⟩
    | cons t r =>
      rcases ih (by simp) (fun x hx => hmem x (List.mem_cons_of_mem _ hx)) with ⟨x, hx, hex⟩
      refine ⟨x, List.mem_cons_of_mem _ hx, ?_⟩
      rw [joinSp_cons s (t :: r) (by simp)]
      have hne : ' ' :: joinSp (t :: r) ≠ [] := by simp
      rw [List.getLast?_append_of_ne_nil s hne]
      have hne2 : joinSp (t :: r) ≠ [] :=
        joinSp_ne_nil (t :: r) (by simp) (fun x hx => hmem x (List.mem_cons_of_mem _ hx))
      show ([' '] ++ joinSp (t :: r)).getLast? = x.getLast?
      rw [List.getLast?_append_of_ne_nil [' '] hne2]
      exact hex

lemma strip_joinSp (ts : List Str) (h1 : ∀ s ∈ ts, stripChars s = s ∧ s ≠ []) :
    stripChars (joinSp ts) = joinSp ts := by
  cases ts with
  | nil => rfl
  | cons s rest =>
    have hne : ∀ x ∈ s :: rest, x ≠ [] := fun x hx => (h1 x hx).2
    refine stripChars_eq_self _ ?_ ?_
    · intro c hcc
      rw [joinSp_head? s rest (hne s (List.mem_cons_self _ _))] at hcc
      exact stripped_head_not (h1 s (List.mem_cons_self _ _)).1 c hcc
    · intro c hcc
      rcases joinSp_getLast?_mem (s :: rest) (by simp) hne with ⟨x, hx, hex⟩
      rw [hex] at hcc
      exact stripped_getLast_not (h1 x hx).1 c hcc

lemma strip_append_space (x : Str) : stripChars (x ++ [' ']) = stripChars x := by
  rw [stripChars, stripChars, List.dropWhile_append]
  by_cases he : (List.dropWhile ws x).isEmpty = true
  · rw [if_pos he]
    have hx : List.dropWhile ws x = [] := List.isEmpty_iff.mp he
    rw [hx]
    rfl
  · rw [if_neg he]
    rw [List.reverse_append]
    show ((([' '].reverse) ++ (List.dropWhile ws x).reverse).dropWhile ws).reverse = _
    rw [List.reverse_singleton, List.singleton_append, List.dropWhile_cons,
      if_pos (by simp [ws])]

lemma strip_accOf (ts : List Str) (h1 : ∀ s ∈ ts, stripChars s = s ∧ s ≠ []) :
    stripChars (accOf ts) = joinSp ts := by
  cases ts with
  | nil => rfl
  | cons s rest =>
    show stripChars (joinSp (s :: rest) ++ [' ']) = joinSp (s :: rest)
    rw [strip_append_space, strip_joinSp _ h1]

lemma joinSp_length_le_append : ∀ (xs ys : List Str),
    (joinSp ys).length ≤ (joinSp (xs ++ ys)).length := by
  intro xs
  induction xs with
  | nil => intro ys; simp
  | cons x xs' ih =>
    intro ys
    refine le_trans (ih ys) ?_
    cases hxy : xs' ++ ys with
    | nil => simp [hxy, joinSp]
    | cons a r =>
      rw [List.cons_append, hxy, joinSp_cons x (a :: r) (by simp)]
      simp only [List.length_append, List.length_cons]
      omega

/-- C7: the overlap seed computed by `_get_overlap_text` from a just-closed
chunk.  When the whole chunk fits in `chunk_overlap` the seed is the entire
chunk (trivially the longest whole-sentence suffix, of length ≤
`chunk_overlap`).  Otherwise the seed is the space-join of a suffix of the
chunk's sentence list whose joined length is ≤ `chunk_overlap`, and it is the
longest such suffix: joining any strictly longer sentence suffix exceeds
`chunk_overlap`.  In both cases the seed's length is at most `chunk_overlap`. -/
theorem get_overlap_text_spec (chunk_overlap : Nat) (text : Str) :
    (get_overlap_text chunk_overlap text).length ≤ chunk_overlap ∧
    ((text.length ≤ chunk_overlap ∧ get_overlap_text chunk_overlap text = text) ∨
      (∃ m, m ≤ (split_into_sentences text).length ∧
        get_overlap_text chunk_overlap text
          = joinSp ((split_into_sentences text).drop
              ((split_into_sentences text).length - m)) ∧
        (∀ m', m < m' → m' ≤ (split_into_sentences text).length →
          chunk_overlap < (joinSp ((split_into_sentences text).drop
              ((split_into_sentences text).length - m'))).length))) := by
  by_cases hfit : text.length ≤ chunk_overlap
  · rw [get_overlap_text, if_pos hfit]
    exact ⟨hfit, Or.inl ⟨hfit, rfl⟩⟩
  · have hss : ∀ s ∈ split_into_sentences text, stripChars s = s ∧ s ≠ [] :=
      fun s hs => mem_split_into_sentences hs
    have h0 : (joinSp []).length ≤ chunk_overlap := by simp [joinSp]
    rcases overlapLoop_greedy chunk_overlap (split_into_sentences text).reverse [] h0 with
      ⟨k, hk, heq, hle, hfail⟩
    have htk : ((split_into_sentences text).reverse.take k).reverse ++ ([] : List Str)
        = (split_into_sentences text).drop ((split_into_sentences text).length - k) := by
      rw [List.append_nil, List.take_reverse, List.reverse_reverse]
    have hkn : k ≤ (split_into_sentences text).length := by
      simpa using hk
    have hdropmem : ∀ s ∈ (split_into_sentences text).drop
        ((split_into_sentences text).length - k), stripChars s = s ∧ s ≠ [] :=
      fun s hs => hss s (List.mem_of_mem_drop hs)
    have hval : get_overlap_text chunk_overlap text
        = joinSp ((split_into_sentences text).drop
            ((split_into_sentences text).length - k)) := by
      rw [get_overlap_text, if_neg hfit]
      show stripChars (overlapLoop chunk_overlap (split_into_sentences text).reverse []) = _
      have hacc : accOf ([] : List Str) = [] := rfl
      rw [← hacc, heq, htk]
      exact strip_accOf _ hdropmem
    rw [htk] at hle
    refine ⟨by rw [hval]; exact hle, Or.inr ⟨k, hkn, hval, ?_⟩⟩
    intro m' hm1 hm2
    have hklt : k < (split_into_sentences text).reverse.length := by
      simp only [List.length_reverse]
      omega
    have hfk := hfail hklt
    have htk1 : ((split_into_sentences text).reverse.take (k + 1)).reverse ++ ([] : List Str)
        = (split_into_sentences text).drop ((split_into_sentences text).length - (k + 1)) := by
      rw [List.append_nil, List.take_reverse, List.reverse_reverse]
    rw [htk1] at hfk
    set n := (split_into_sentences text).length with hn
    have hsplit : (split_into_sentences text).drop (n - m')
        = List.take ((n - (k + 1)) - (n - m')) ((split_into_sentences text).drop (n - m'))
          ++ (split_into_sentences text).drop (n - (k + 1)) := by
      have hdd : List.drop ((n - (k + 1)) - (n - m'))
            ((split_into_sentences text).drop (n - m'))
          = (split_into_sentences text).drop (n - (k + 1)) := by
        rw [List.drop_drop]
        congr 1
        omega
      rw [← hdd]
      exact (List.take_append_drop _ _).symm
    calc chunk_overlap
        < (joinSp ((split_into_sentences text).drop (n - (k + 1)))).length := hfk
      _ ≤ (joinSp ((split_into_sentences text).drop (n - m'))).length := by
          rw [hsplit]
          exact joinSp_length_le_append _ _
